import Mathlib

/-
  Verification development for the alignment layout and projection engine of
  src/pgr-bin/src/bin/pgr-generate-chr-aln-plot.rs.

  The Rust program is embedded shallowly:
  * u32 / i32 machine arithmetic becomes Nat / Int with explicit reductions
    modulo 2^32 (release-mode wrapping semantics);
  * f64 layout coordinates (whose values are integral: u32 lengths, their sums,
    and the integral padding constant) become integers, and f64 drawing-scale
    arithmetic becomes exact rationals;
  * FxHashMap / FxHashSet accumulators become association lists threaded
    through explicit folds (the program's entry / or_default / insert API is
    mirrored operation by operation);
  * fallible lookups (HashMap::get + unwrap) become Option-valued functions,
    so an aborted run is a `none` result.
-/

/-- Reduction of a natural number into the u32 range. -/
def u32mod (x : Nat) : Nat := x % 4294967296

/-- The value of a u32 bit pattern reinterpreted as an i32 (`x as i32` in Rust). -/
def i32ofU32 (x : Nat) : Int :=
  if u32mod x < 2147483648 then (u32mod x : Int) else (u32mod x : Int) - 4294967296

/-- Wrapping reduction of an integer into the i32 range (release-mode i32 arithmetic). -/
def wrapI32 (x : Int) : Int := (x + 2147483648) % 4294967296 - 2147483648

/-- Wrapping u32 subtraction (`a - b` on u32 in release mode). -/
def u32sub (a b : Nat) : Nat := (u32mod a + 4294967296 - u32mod b) % 4294967296

/-- One alignment record of the ctgmap.json input (struct CtgMapRec in the source). -/
structure CtgMapRec where
  t_name : String
  ts : Nat
  te : Nat
  q_name : String
  qs : Nat
  qe : Nat
  ctg_len : Nat
  orientation : Nat
  ctg_orientation : Nat
  t_dup : Bool
  t_ovlp : Bool
  q_dup : Bool
  q_ovlp : Bool
deriving DecidableEq

/-- `(r.qe as i32 - r.qs as i32).unsigned_abs()`: the aligned query span added to the
per-(query, target) coverage tally. -/
def qspan (r : CtgMapRec) : Nat := (wrapI32 (i32ofU32 r.qe - i32ofU32 r.qs)).natAbs

/-- `(r.qs as i32 - r.qe as i32).abs()`: the span used when selecting the representative
record of a query inside one target block. -/
def recSpan (r : CtgMapRec) : Nat := (wrapI32 (i32ofU32 r.qs - i32ofU32 r.qe)).natAbs

/-- The accumulated coverage tally `ctg_target_hit_len[q][t]`: for every
non-query-duplicate record of query `q` against target `t`, `qspan` is added with
wrapping u32 addition. -/
def qSpanTally (records : List CtgMapRec) (q t : String) : Nat :=
  (records.filter (fun r => !r.q_dup && r.q_name == q && r.t_name == t)).foldl
    (fun acc r => (acc + qspan r) % 4294967296) 0

/-- The distinct target names hit by the non-query-duplicate records of query `q`,
in order of first appearance (the key set of `ctg_target_hit_len[q]`). -/
def candidateTargetsAux (q : String) : List CtgMapRec → List String → List String
  | [], _ => []
  | r :: rest, seen =>
    if !r.q_dup && r.q_name == q then
      if r.t_name ∈ seen then candidateTargetsAux q rest seen
      else r.t_name :: candidateTargetsAux q rest (r.t_name :: seen)
    else candidateTargetsAux q rest seen

def candidateTargets (records : List CtgMapRec) (q : String) : List String :=
  candidateTargetsAux q records []

/-- `ctg2tgt`: the primary target of query `q` — the candidate target whose tally is
maximal (the source sorts the tally vector descending and takes the head; the model
keeps the first maximum encountered). `none` when the query has no
non-query-duplicate record. -/
def primaryTarget (records : List CtgMapRec) (q : String) : Option String :=
  match candidateTargets records q with
  | [] => none
  | t :: ts =>
    some (ts.foldl
      (fun best t' =>
        if qSpanTally records q t' > qSpanTally records q best then t' else best) t)

/-- The records pushed onto `tgt_to_records[t]`: non-query-duplicate records whose
query's primary target equals the record's target name `t`, in input order. -/
def primaryRecords (records : List CtgMapRec) (t : String) : List CtgMapRec :=
  records.filter (fun r =>
    !r.q_dup && r.t_name == t &&
      decide (primaryTarget records r.q_name = some t))

/-- `tgt_to_records.get(t)`: the map has an entry for `t` exactly when at least one
primary record was pushed for it. -/
def tgtToRecords (records : List CtgMapRec) (t : String) : Option (List CtgMapRec) :=
  match primaryRecords records t with
  | [] => none
  | l => some l

/-- `qry_to_alt_tgt_records[q]`: non-query-duplicate records of query `q` whose
query's primary target differs from the record's target. -/
def qryAltRecords (records : List CtgMapRec) (q : String) : List CtgMapRec :=
  records.filter (fun r =>
    !r.q_dup && r.q_name == q &&
      decide (primaryTarget records r.q_name ≠ some r.t_name))

/-- `tgt_to_alt_qry_records[t]`: non-query-duplicate records against target `t` whose
query's primary target differs from `t`. -/
def tgtAltRecords (records : List CtgMapRec) (t : String) : List CtgMapRec :=
  records.filter (fun r =>
    !r.q_dup && r.t_name == t &&
      decide (primaryTarget records r.q_name ≠ some r.t_name))

/-! ### Linear layout planner -/

/-- The query-length table as an association list `(name, length)` (the source builds
`query_length` from the sorted table; names are unique keys). -/
abbrev QLenTable := List (String × Nat)

/-- `HashMap::get` on an association list. -/
def alookup {α : Type} (m : List (String × α)) (k : String) : Option α :=
  match m with
  | [] => none
  | (k', v) :: rest => if k' = k then some v else alookup rest k

/-- The fold of lines 217-229 of the source: for every record of a block, look up the
query length (unwrap — `none` aborts), and add it to the sum the first time the query
name is seen.  Accumulator: partial sum and the `q_set` of seen names. -/
def queryLenSumAux (qt : QLenTable) : List CtgMapRec → ℤ → List String → Option ℤ
  | [], acc, _ => some acc
  | r :: rest, acc, seen =>
    match alookup qt r.q_name with
    | none => none
    | some ql =>
      if r.q_name ∈ seen then queryLenSumAux qt rest acc seen
      else queryLenSumAux qt rest (acc + (ql : ℤ)) (r.q_name :: seen)

/-- `q_len_sum`: the summed lengths of the distinct query contigs of one target block. -/
def queryLenSum (qt : QLenTable) (block : List CtgMapRec) : Option ℤ :=
  queryLenSumAux qt block 0 []

/-- One element of `target_aln_blocks`: `(id, t_name, t_len, offset, records)`. -/
structure TargetBlock where
  id : Nat
  name : String
  t_len : Nat
  offset : ℤ
  records : List CtgMapRec
deriving DecidableEq

/-- `target_padding = 1.5e6`. -/
def target_padding : ℤ := 1500000

/-- Lines 212-216: a target is dropped from the walk when a filter is set that is
neither the sentinel "summary" nor the target's own name. -/
def skipTarget (ctgF : Option String) (name : String) : Bool :=
  match ctgF with
  | some c => c != "summary" && c != name
  | none => false

/-- The flat_map of lines 208-239: walk the target table threading the running
`offset`; a target is skipped when a non-"summary" filter names another contig, or
when it has no primary records; otherwise a block is emitted at the current offset and
the offset advances by `max(t_len, q_len_sum) + target_padding`. -/
def layoutAux (ctgF : Option String) (qt : QLenTable)
    (ttr : String → Option (List CtgMapRec)) :
    List (Nat × String × Nat) → ℤ → Option (List TargetBlock × ℤ)
  | [], offset => some ([], offset)
  | (id, name, tlen) :: rest, offset =>
    if skipTarget ctgF name then layoutAux ctgF qt ttr rest offset
    else
      match queryLenSum qt ((ttr name).getD []) with
      | none => none
      | some qsum =>
        match ttr name with
        | some recs =>
          match layoutAux ctgF qt ttr rest (offset + max (tlen : ℤ) qsum + target_padding) with
          | none => none
          | some (bs, fin) => some (⟨id, name, tlen, offset, recs⟩ :: bs, fin)
        | none => layoutAux ctgF qt ttr rest offset

/-- The layout phase of a run: partition the records, then walk the target table.
`none` models a fatal abort (a failed unwrap) before any output is written; the final
rational is the accumulated total extent `offset`. -/
def runLayout (records : List CtgMapRec) (targetTable : List (Nat × String × Nat))
    (qt : QLenTable) (ctgF : Option String) : Option (List TargetBlock × ℤ) :=
  layoutAux ctgF qt (tgtToRecords records) targetTable 0

/-- The targets whose backbone the overview pass draws: exactly the blocks of
`target_aln_blocks` (lines 266-290). -/
def overviewBackboneTargets (blocks : List TargetBlock) : List String :=
  blocks.map TargetBlock.name

/-! ### Scaling factors -/

/-- Lines 260-264: `panel_width * 0.8 / total_target_bases` when the caller supplies a
total, else `panel_width * 0.8 / offset` with the accumulated layout extent. -/
def baseScalingFactor (panel_width : ℚ) (total_target_bases : Option ℚ)
    (offset : ℚ) : ℚ :=
  match total_target_bases with
  | some total => panel_width * (8 / 10) / total
  | none => panel_width * (8 / 10) / offset

/-- Lines 407-412: the scaling factor used by the per-target detail pass — the base
factor itself when a `--ctg` filter is given, and the base factor times 12 otherwise. -/
def detailScalingFactor (ctgF : Option String) (sf : ℚ) : ℚ :=
  match ctgF with
  | some _ => sf
  | none => sf * 12

/-! ### Colors -/

/-- The fixed 97-entry palette (static CMAP). -/
def CMAP : List String := [
  "#870098", "#00aaa5", "#3bff00", "#ec0000", "#00a2c3", "#00f400", "#ff1500", "#0092dd",
  "#00dc00", "#ff8100", "#007ddd", "#00c700", "#ffb100", "#0038dd", "#00af00", "#fcd200",
  "#0000d5", "#009a00", "#f1e700", "#0000b1", "#00a55d", "#d4f700", "#4300a2", "#00aa93",
  "#a1ff00", "#dc0000", "#00aaab", "#1dff00", "#f40000", "#009fcb", "#00ef00", "#ff2d00",
  "#008ddd", "#00d700", "#ff9900", "#0078dd", "#00c200", "#ffb900", "#0025dd", "#00aa00",
  "#f9d700", "#0000c9", "#009b13", "#efed00", "#0300aa", "#00a773", "#ccf900", "#63009e",
  "#00aa98", "#84ff00", "#e10000", "#00a7b3", "#00ff00", "#f90000", "#009bd7", "#00ea00",
  "#ff4500", "#0088dd", "#00d200", "#ffa100", "#005ddd", "#00bc00", "#ffc100", "#0013dd",
  "#00a400", "#f7dd00", "#0000c1", "#009f33", "#e8f000", "#1800a7", "#00aa88", "#c4fc00",
  "#78009b", "#00aaa0", "#67ff00", "#e60000", "#00a4bb", "#00fa00", "#fe0000", "#0098dd",
  "#00e200", "#ff5d00", "#0082dd", "#00cc00", "#ffa900", "#004bdd", "#00b400", "#ffc900",
  "#0000dd", "#009f00", "#f4e200", "#0000b9", "#00a248", "#dcf400", "#2d00a4", "#00aa8d",
  "#bcff00"]

/-- Modelled from the spec: `calculate_hash` wraps `std::collections::hash_map::DefaultHasher`,
which `DefaultHasher::new()` creates with fixed keys, so it is one fixed deterministic
function of the hashed bytes, identical across both passes and across separate runs.
The standard library's SipHash internals are outside this repository; the model uses a
concrete deterministic 64-bit fold over the string's characters in their place. -/
def calculate_hash (s : String) : Nat :=
  s.toList.foldl (fun h c => (h * 1099511628211 + c.toNat) % 18446744073709551616)
    14695981039346656037

/-- Line 334: color of a query backbone in the overview pass. -/
def overviewBackboneColor (q_name : String) : String :=
  CMAP.getD (calculate_hash q_name % 97) ""

/-- Line 380: fill color of a ribbon in the overview pass. -/
def overviewRibbonColor (q_name : String) : String :=
  CMAP.getD (calculate_hash q_name % 97) ""

/-- Line 647: color of a query backbone in the per-target detail pass. -/
def detailBackboneColor (q_name : String) : String :=
  CMAP.getD (calculate_hash q_name % 97) ""

/-- Line 673: color of an alternate-alignment overlay in the detail pass. -/
def detailAltColor (q_name : String) : String :=
  CMAP.getD (calculate_hash q_name % 97) ""

/-- Line 724: fill color of a ribbon in the detail pass. -/
def detailRibbonColor (q_name : String) : String :=
  CMAP.getD (calculate_hash q_name % 97) ""

/-! ### Projection of a record into ribbon geometry -/

/-- Lines 357-369 (overview pass): the query interval of a ribbon before offsets and
scaling — reflected through the contig length when `ctg_orientation == 1`, then the
two endpoints swapped when `orientation != ctg_orientation`.  u32 arithmetic. -/
def overviewQueryInterval (r : CtgMapRec) (q_len : Nat) : Nat × Nat :=
  let p := if r.ctg_orientation == 1
    then (u32sub q_len r.qe, u32sub q_len r.qs)
    else (r.qs, r.qe)
  if r.orientation != r.ctg_orientation then (p.2, p.1) else p

/-- Lines 370-376 (overview pass): the drawn query-side coordinates — the projected
interval plus the target offset and the within-block query offset, scaled. -/
def overviewRibbonQuery (r : CtgMapRec) (q_len : Nat) (t_offset q_offset sf : ℚ) :
    ℚ × ℚ :=
  let p := overviewQueryInterval r q_len
  (((p.1 : ℚ) + t_offset + q_offset) * sf, ((p.2 : ℚ) + t_offset + q_offset) * sf)

/-- Lines 701-713 (detail pass): the same projection transcribed from
`get_chr_svg_group`. -/
def detailQueryInterval (r : CtgMapRec) (q_len : Nat) : Nat × Nat :=
  let p := if r.ctg_orientation == 1
    then (u32sub q_len r.qe, u32sub q_len r.qs)
    else (r.qs, r.qe)
  if r.orientation != r.ctg_orientation then (p.2, p.1) else p

/-- Lines 714-720 (detail pass): the drawn query-side coordinates. -/
def detailRibbonQuery (r : CtgMapRec) (q_len : Nat) (t_offset q_offset sf : ℚ) :
    ℚ × ℚ :=
  let p := detailQueryInterval r q_len
  (((p.1 : ℚ) + t_offset + q_offset) * sf, ((p.2 : ℚ) + t_offset + q_offset) * sf)

/-- The coordinate transform as the specification words it: reflect to
`(qlen - qe, qlen - qs)` on reverse contig orientation, swap exactly when
`orientation != contig_orientation`, add the within-block offset and the target
offset, multiply by the scaling factor. -/
def specQueryTransform (qlen qs qe orientation ctg_orientation : Nat)
    (t_offset q_offset sf : ℚ) : ℚ × ℚ :=
  let p := if ctg_orientation = 1 then (qlen - qe, qlen - qs) else (qs, qe)
  let p := if orientation ≠ ctg_orientation then (p.2, p.1) else p
  (((p.1 : ℚ) + q_offset + t_offset) * sf, ((p.2 : ℚ) + q_offset + t_offset) * sf)

/-! ### Ribbon emission and representative selection inside one target block -/

/-- Lines 347-350 / 691-694: a ribbon is emitted for every block record except those
with both the target-duplicate and the query-duplicate flag set. -/
def ribbonRecords (block : List CtgMapRec) : List CtgMapRec :=
  block.filter (fun r => !(r.t_dup && r.q_dup))

/-- The doubly-duplicate records of a block. -/
def doublyDupRecords (block : List CtgMapRec) : List CtgMapRec :=
  block.filter (fun r => r.t_dup && r.q_dup)

/-- One step of building `best_query_block`: `entry(q_name).or_insert(record)`, then
replace the held record when its span is strictly smaller than the new record's. -/
def updateRep (m : List (String × CtgMapRec)) (r : CtgMapRec) :
    List (String × CtgMapRec) :=
  match m with
  | [] => [(r.q_name, r)]
  | (k, e) :: rest =>
    if k = r.q_name then (k, if recSpan e < recSpan r then r else e) :: rest
    else (k, e) :: updateRep rest r

/-- Lines 309-319 / 624-632: the per-query representative record of a block. -/
def bestQueryBlock (block : List CtgMapRec) : List (String × CtgMapRec) :=
  block.foldl updateRep []

/-- Stable insertion into a list sorted by ascending target start. -/
def insertByTs (r : CtgMapRec) : List CtgMapRec → List CtgMapRec
  | [] => [r]
  | x :: xs => if x.ts ≤ r.ts then x :: insertByTs r xs else r :: x :: xs

/-- A stable sort by ascending target start (`sort_by_key(|v| v.ts)`). -/
def sortByTs : List CtgMapRec → List CtgMapRec
  | [] => []
  | x :: xs => insertByTs x (sortByTs xs)

/-- Lines 321-322 / 633-634: the representative records of a block, sorted by
ascending target start. -/
def repList (block : List CtgMapRec) : List CtgMapRec :=
  sortByTs ((bestQueryBlock block).map Prod.snd)

/-- Lines 325-345 / 637-690: walk the sorted representatives accumulating `q_offset`;
the first time a query name is met, the current offset is recorded for it in
`q_offset_map` and the offset advances by the query's length (looked up first —
`none` aborts). -/
def qOffsetListAux (qt : QLenTable) :
    List CtgMapRec → ℤ → List (String × ℤ) → Option (List (String × ℤ))
  | [], _, m => some m
  | r :: rest, cur, m =>
    match alookup qt r.q_name with
    | none => none
    | some ql =>
      if r.q_name ∈ m.map Prod.fst then qOffsetListAux qt rest cur m
      else qOffsetListAux qt rest (cur + (ql : ℤ)) (m ++ [(r.q_name, cur)])

/-- `q_offset_map` of one target block. -/
def qOffsetMap (qt : QLenTable) (block : List CtgMapRec) :
    Option (List (String × ℤ)) :=
  qOffsetListAux qt (repList block) 0 []

/-- The first-appearance list of distinct query names of a block with a seen
accumulator (the order in which `q_set` / the representative map acquire keys). -/
def newNames : List CtgMapRec → List String → List String
  | [], _ => []
  | r :: rest, seen =>
    if r.q_name ∈ seen then newNames rest seen
    else r.q_name :: newNames rest (r.q_name :: seen)

/-- The distinct query names of a block in order of first appearance. -/
def dedupNames (block : List CtgMapRec) : List String :=
  newNames block []

/-! ### Basic lemmas -/

/-- Wrapping u32 subtraction agrees with mathematical subtraction in range. -/
theorem u32sub_of_le {a b : Nat} (h : b ≤ a) (ha : a < 4294967296) :
    u32sub a b = a - b := by
  unfold u32sub u32mod
  omega

/-- Shorthand constructor for concrete records used in witnesses (both overlap flags
false). -/
def mkRec (t q : String) (ts te qs qe ctgLen ori ctgOri : Nat) (td qd : Bool) :
    CtgMapRec :=
  ⟨t, ts, te, q, qs, qe, ctgLen, ori, ctgOri, td, false, qd, false⟩

/-- Claim C4: ribbon and backbone color is a pure function of the query name — each of
the five drawing sites (overview backbone, overview ribbon, detail backbone, detail
alternate overlay, detail ribbon) indexes the same fixed 97-entry palette with the
query name's hash modulo 97, so a query name receives one color in the overview pass,
in every per-target detail pass, and (the color being a function of the name alone) in
any two runs on identical input. -/
theorem c4_color_pure_function :
    CMAP.length = 97 ∧
    ∀ q : String,
      calculate_hash q % 97 < 97 ∧
      overviewRibbonColor q = CMAP.getD (calculate_hash q % 97) "" ∧
      overviewBackboneColor q = overviewRibbonColor q ∧
      detailBackboneColor q = overviewRibbonColor q ∧
      detailAltColor q = overviewRibbonColor q ∧
      detailRibbonColor q = overviewRibbonColor q := by
  refine ⟨rfl, fun q => ⟨Nat.mod_lt _ (by norm_num), rfl, rfl, rfl, rfl, rfl⟩⟩

/-- Claim C7, counterexample: on a run with `--ctg chr1`, the detail pass reuses the
base scaling factor unchanged, so it is not the base factor multiplied by 12
(here base = 1400 * 0.8 / 1000 = 28/25, and 28/25 ≠ 336/25). -/
theorem c7_counterexample :
    detailScalingFactor (some "chr1") (baseScalingFactor 1400 none 1000)
      ≠ baseScalingFactor 1400 none 1000 * 12 := by
  unfold detailScalingFactor baseScalingFactor
  norm_num

/-- Claim C7 as amended: the per-target detail pass multiplies the base scaling factor
(panel_width * 0.8 over the caller-supplied total bases, or over the accumulated
layout extent when none is supplied) by the fixed constant 12 exactly when no `--ctg`
filter is given; when a filter is given the detail pass reuses the base factor
unchanged. -/
theorem c7_amended (pw total off sf : ℚ) :
    detailScalingFactor none sf = sf * 12 ∧
    (∀ c : String, detailScalingFactor (some c) sf = sf) ∧
    baseScalingFactor pw (some total) off = pw * (8 / 10) / total ∧
    baseScalingFactor pw none off = pw * (8 / 10) / off :=
  ⟨rfl, fun _ => rfl, rfl, rfl⟩

/-- Claim C2: in both the overview and the detail pass, the drawn query interval of a
ribbon is obtained by reflecting `(qs, qe)` to `(qlen - qe, qlen - qs)` when
`ctg_orientation` is reverse, swapping the endpoints exactly when
`orientation != ctg_orientation`, adding the within-block query offset and the target
offset, and scaling; in particular `qlen = 1000, qs = 100, qe = 200,
ctg_orientation = 1, orientation = 1` projects to `(800, 900)` before offsets and
scaling. -/
theorem c2_projection (r : CtgMapRec) (q_len : Nat) (t_offset q_offset sf : ℚ)
    (hqs : r.qs ≤ q_len) (hqe : r.qe ≤ q_len) (hlen : q_len < 4294967296) :
    overviewRibbonQuery r q_len t_offset q_offset sf
        = specQueryTransform q_len r.qs r.qe r.orientation r.ctg_orientation
            t_offset q_offset sf
      ∧ detailRibbonQuery r q_len t_offset q_offset sf
        = specQueryTransform q_len r.qs r.qe r.orientation r.ctg_orientation
            t_offset q_offset sf
      ∧ overviewQueryInterval (mkRec "t" "q" 0 0 100 200 1000 1 1 false false) 1000
          = (800, 900)
      ∧ detailQueryInterval (mkRec "t" "q" 0 0 100 200 1000 1 1 false false) 1000
          = (800, 900) := by
  have h1 : u32sub q_len r.qe = q_len - r.qe := u32sub_of_le hqe hlen
  have h2 : u32sub q_len r.qs = q_len - r.qs := u32sub_of_le hqs hlen
  refine ⟨?_, ?_, by decide, by decide⟩ <;>
  · simp only [overviewRibbonQuery, overviewQueryInterval, detailRibbonQuery,
      detailQueryInterval, specQueryTransform]
    by_cases hc : r.ctg_orientation = 1 <;>
      by_cases ho : r.orientation = r.ctg_orientation <;>
        simp [hc, ho, h1, h2, bne_iff_ne, Prod.ext_iff] <;>
          exact ⟨Or.inl (by ring), Or.inl (by ring)⟩

def c2rec : CtgMapRec := mkRec "t" "q" 0 0 100 200 1000 1 1 false false

/-- Witness for C2 at a concrete record and concrete offsets and scale. -/
theorem c2_witness :
    (c2rec.qs ≤ 1000 ∧ c2rec.qe ≤ 1000 ∧ 1000 < 4294967296) ∧
    (overviewRibbonQuery c2rec 1000 5 7 2
        = specQueryTransform 1000 c2rec.qs c2rec.qe c2rec.orientation
            c2rec.ctg_orientation 5 7 2
      ∧ detailRibbonQuery c2rec 1000 5 7 2
        = specQueryTransform 1000 c2rec.qs c2rec.qe c2rec.orientation
            c2rec.ctg_orientation 5 7 2
      ∧ overviewQueryInterval (mkRec "t" "q" 0 0 100 200 1000 1 1 false false) 1000
          = (800, 900)
      ∧ detailQueryInterval (mkRec "t" "q" 0 0 100 200 1000 1 1 false false) 1000
          = (800, 900)) :=
  ⟨⟨by decide, by decide, by decide⟩,
    c2_projection c2rec 1000 5 7 2 (by decide) (by decide) (by decide)⟩

/-! ### Key-set lemmas for the representative map -/

theorem keys_updateRep (m : List (String × CtgMapRec)) (r : CtgMapRec) :
    (updateRep m r).map Prod.fst
      = if r.q_name ∈ m.map Prod.fst then m.map Prod.fst
        else m.map Prod.fst ++ [r.q_name] := by
  induction m with
  | nil => simp [updateRep]
  | cons kv rest ih =>
    obtain ⟨k, e⟩ := kv
    by_cases h : k = r.q_name
    · simp [updateRep, h]
    · by_cases hm : r.q_name ∈ rest.map Prod.fst <;>
        simp [updateRep, h, ih, hm, Ne.symm h]

theorem mem_keys_foldl_of_mem (block : List CtgMapRec) :
    ∀ (m : List (String × CtgMapRec)) (k : String), k ∈ m.map Prod.fst →
      k ∈ (block.foldl updateRep m).map Prod.fst := by
  induction block with
  | nil => intro m k hk; simpa using hk
  | cons r rest ih =>
    intro m k hk
    simp only [List.foldl_cons]
    refine ih _ k ?_
    rw [keys_updateRep]
    by_cases h : r.q_name ∈ m.map Prod.fst <;> simp [h, hk]

theorem qname_mem_keys_foldl (block : List CtgMapRec) :
    ∀ (m : List (String × CtgMapRec)) (r : CtgMapRec), r ∈ block →
      r.q_name ∈ (block.foldl updateRep m).map Prod.fst := by
  induction block with
  | nil => intro m r hr; cases hr
  | cons x rest ih =>
    intro m r hr
    simp only [List.foldl_cons]
    rcases List.mem_cons.mp hr with h | h
    · subst h
      refine mem_keys_foldl_of_mem rest _ _ ?_
      rw [keys_updateRep]
      by_cases hm : r.q_name ∈ m.map Prod.fst <;> simp [hm]
    · exact ih _ r h

theorem ribbon_doublyDup_length (block : List CtgMapRec) :
    (ribbonRecords block).length + (doublyDupRecords block).length = block.length := by
  unfold ribbonRecords doublyDupRecords
  induction block with
  | nil => rfl
  | cons r rest ih =>
    by_cases ht : r.t_dup = true <;> by_cases hq : r.q_dup = true <;>
      simp [List.filter_cons, ht, hq] at ih ⊢ <;> omega

/-- Claim C5: inside a target block, a record carrying both the target-duplicate and
the query-duplicate flag is excluded from ribbon drawing (a ribbon is emitted for a
block record exactly when not both flags are set), yet the backbone / offset
computation still consumes the record — its query name enters the representative map;
hence the ribbon count falls short of the block's record count by exactly the number
of doubly-duplicate records. -/
theorem c5_doubly_dup_records (block : List CtgMapRec) :
    (∀ r : CtgMapRec,
        r ∈ ribbonRecords block ↔ r ∈ block ∧ ¬(r.t_dup = true ∧ r.q_dup = true)) ∧
    (ribbonRecords block).length = block.length - (doublyDupRecords block).length ∧
    (∀ r ∈ block, r.t_dup = true → r.q_dup = true →
        r.q_name ∈ (bestQueryBlock block).map Prod.fst) := by
  refine ⟨?_, ?_, ?_⟩
  · intro r
    unfold ribbonRecords
    rw [List.mem_filter]
    constructor
    · rintro ⟨h1, h2⟩
      refine ⟨h1, fun hb => ?_⟩
      simp [hb.1, hb.2] at h2
    · rintro ⟨h1, h2⟩
      refine ⟨h1, ?_⟩
      by_cases ht : r.t_dup = true <;> by_cases hq : r.q_dup = true
      · exact absurd ⟨ht, hq⟩ h2
      all_goals simp [ht, hq]
  · have := ribbon_doublyDup_length block
    omega
  · intro r hr _ _
    exact qname_mem_keys_foldl block [] r hr

def c5rec1 : CtgMapRec := mkRec "T" "a" 0 10 0 10 100 0 0 false false
def c5rec2 : CtgMapRec := mkRec "T" "b" 5 15 0 10 100 0 0 true true
def c5block : List CtgMapRec := [c5rec1, c5rec2]

/-- Witness for C5 on a two-record block with one doubly-duplicate record. -/
theorem c5_witness :
    (c5rec2 ∈ ribbonRecords c5block
        ↔ c5rec2 ∈ c5block ∧ ¬(c5rec2.t_dup = true ∧ c5rec2.q_dup = true)) ∧
    (ribbonRecords c5block).length = c5block.length - (doublyDupRecords c5block).length ∧
    c5rec2.q_name ∈ (bestQueryBlock c5block).map Prod.fst :=
  ⟨(c5_doubly_dup_records c5block).1 c5rec2,
   (c5_doubly_dup_records c5block).2.1,
   (c5_doubly_dup_records c5block).2.2 c5rec2 (by decide) (by decide) (by decide)⟩

/-! ### Primary-target selection lemmas -/

theorem mem_candidateTargetsAux (q : String) :
    ∀ (l : List CtgMapRec) (seen : List String) (r : CtgMapRec),
      r ∈ l → r.q_dup = false → r.q_name = q →
      r.t_name ∈ candidateTargetsAux q l seen ∨ r.t_name ∈ seen := by
  intro l
  induction l with
  | nil => intro seen r hr _ _; cases hr
  | cons x rest ih =>
    intro seen r hr hdup hq
    rcases List.mem_cons.mp hr with h | h
    · subst h
      have hcond : (!r.q_dup && r.q_name == q) = true := by simp [hdup, hq]
      simp only [candidateTargetsAux, hcond, if_true]
      by_cases hs : r.t_name ∈ seen
      · rw [if_pos hs]
        exact Or.inr hs
      · rw [if_neg hs]
        exact Or.inl (List.mem_cons_self _ _)
    · by_cases hcond : (!x.q_dup && x.q_name == q) = true
      · simp only [candidateTargetsAux, hcond, if_true]
        by_cases hs : x.t_name ∈ seen
        · rw [if_pos hs]
          exact ih seen r h hdup hq
        · rw [if_neg hs]
          rcases ih (x.t_name :: seen) r h hdup hq with h1 | h1
          · exact Or.inl (List.mem_cons_of_mem _ h1)
          · rcases List.mem_cons.mp h1 with h2 | h2
            · exact Or.inl (by rw [h2]; exact List.mem_cons_self _ _)
            · exact Or.inr h2
      · simp only [candidateTargetsAux]
        rw [if_neg hcond]
        exact ih seen r h hdup hq

theorem mem_candidateTargets (records : List CtgMapRec) (r : CtgMapRec)
    (hr : r ∈ records) (hdup : r.q_dup = false) :
    r.t_name ∈ candidateTargets records r.q_name := by
  rcases mem_candidateTargetsAux r.q_name records [] r hr hdup rfl with h | h
  · exact h
  · cases h

theorem foldl_pick_max (records : List CtgMapRec) (q : String) :
    ∀ (ts : List String) (t : String),
      qSpanTally records q t ≤
        qSpanTally records q (ts.foldl (fun best t' =>
          if qSpanTally records q t' > qSpanTally records q best then t' else best) t)
      ∧ ∀ t' ∈ ts,
          qSpanTally records q t' ≤
            qSpanTally records q (ts.foldl (fun best t'' =>
              if qSpanTally records q t'' > qSpanTally records q best then t'' else best) t) := by
  intro ts
  induction ts with
  | nil => intro t; exact ⟨le_refl _, by simp⟩
  | cons t' ts ih =>
    intro t
    simp only [List.foldl_cons]
    constructor
    · refine le_trans ?_ (ih _).1
      by_cases h : qSpanTally records q t' > qSpanTally records q t
      · rw [if_pos h]; exact le_of_lt h
      · rw [if_neg h]
    · intro t'' ht''
      rcases List.mem_cons.mp ht'' with h | h
      · subst h
        refine le_trans ?_ (ih _).1
        by_cases h2 : qSpanTally records q t'' > qSpanTally records q t
        · rw [if_pos h2]
        · rw [if_neg h2]; omega
      · exact (ih _).2 t'' h

theorem foldl_pick_mem (records : List CtgMapRec) (q : String) :
    ∀ (ts : List String) (t : String),
      (ts.foldl (fun best t' =>
        if qSpanTally records q t' > qSpanTally records q best then t' else best) t)
        ∈ t :: ts := by
  intro ts
  induction ts with
  | nil => intro t; simp
  | cons t' ts ih =>
    intro t
    simp only [List.foldl_cons]
    have hm := ih (if qSpanTally records q t' > qSpanTally records q t then t' else t)
    rcases List.mem_cons.mp hm with h1 | h1
    · rw [h1]
      by_cases h : qSpanTally records q t' > qSpanTally records q t <;> simp [h]
    · exact List.mem_cons_of_mem _ (List.mem_cons_of_mem _ h1)

theorem primaryTarget_spec (records : List CtgMapRec) (q : String)
    (h : candidateTargets records q ≠ []) :
    ∃ t, primaryTarget records q = some t ∧ t ∈ candidateTargets records q ∧
      ∀ t' ∈ candidateTargets records q,
        qSpanTally records q t' ≤ qSpanTally records q t := by
  unfold primaryTarget
  cases hc : candidateTargets records q with
  | nil => exact absurd hc h
  | cons t ts =>
    refine ⟨_, rfl, ?_, ?_⟩
    · exact hc ▸ foldl_pick_mem records q ts t
    · intro t' ht'
      rcases List.mem_cons.mp ht' with h1 | h1
      · subst h1; exact (foldl_pick_max records q ts t').1
      · exact (foldl_pick_max records q ts t).2 t' h1

theorem getD_tgtToRecords (records : List CtgMapRec) (t : String) :
    (tgtToRecords records t).getD [] = primaryRecords records t := by
  unfold tgtToRecords
  cases h : primaryRecords records t with
  | nil => simp [h]
  | cons a l => simp [h]

theorem mem_primaryRecords_iff (records : List CtgMapRec) (r : CtgMapRec)
    (hr : r ∈ records) (hdup : r.q_dup = false) :
    r ∈ primaryRecords records r.t_name
      ↔ primaryTarget records r.q_name = some r.t_name := by
  unfold primaryRecords
  rw [List.mem_filter]
  simp [hr, hdup]

theorem mem_qryAltRecords_iff (records : List CtgMapRec) (r : CtgMapRec)
    (hr : r ∈ records) (hdup : r.q_dup = false) :
    r ∈ qryAltRecords records r.q_name
      ↔ primaryTarget records r.q_name ≠ some r.t_name := by
  unfold qryAltRecords
  rw [List.mem_filter]
  simp [hr, hdup]

theorem mem_tgtAltRecords_iff (records : List CtgMapRec) (r : CtgMapRec)
    (hr : r ∈ records) (hdup : r.q_dup = false) :
    r ∈ tgtAltRecords records r.t_name
      ↔ primaryTarget records r.q_name ≠ some r.t_name := by
  unfold tgtAltRecords
  rw [List.mem_filter]
  simp [hr, hdup]

/-- Claim C1 as amended: for every query contig, its primary target is a candidate
target attaining the maximum accumulated span tally (established by a full scan of the
per-query tallies), and the set of NON-query-duplicate records is partitioned — such a
record is stored as primary exactly when its query's primary target equals the
record's target name, and otherwise it is alternate, indexed both under its query name
and under its target name.  (Query-duplicate records are dropped from the partition
entirely; see the counterexample.) -/
theorem c1_primary_partition (records : List CtgMapRec) (r : CtgMapRec)
    (hr : r ∈ records) (hdup : r.q_dup = false) :
    ∃ t, primaryTarget records r.q_name = some t
      ∧ t ∈ candidateTargets records r.q_name
      ∧ (∀ t' ∈ candidateTargets records r.q_name,
          qSpanTally records r.q_name t' ≤ qSpanTally records r.q_name t)
      ∧ (r ∈ (tgtToRecords records r.t_name).getD [] ↔ t = r.t_name)
      ∧ (t ≠ r.t_name →
          r ∈ qryAltRecords records r.q_name ∧ r ∈ tgtAltRecords records r.t_name)
      ∧ (t = r.t_name →
          r ∉ qryAltRecords records r.q_name ∧ r ∉ tgtAltRecords records r.t_name) := by
  have hne : candidateTargets records r.q_name ≠ [] := by
    intro h0
    have hm := mem_candidateTargets records r hr hdup
    rw [h0] at hm
    cases hm
  obtain ⟨t, hpt, hmem, hmax⟩ := primaryTarget_spec records r.q_name hne
  have hq := mem_qryAltRecords_iff records r hr hdup
  have ht := mem_tgtAltRecords_iff records r hr hdup
  rw [hpt] at hq ht
  refine ⟨t, hpt, hmem, hmax, ?_, ?_, ?_⟩
  · rw [getD_tgtToRecords, mem_primaryRecords_iff records r hr hdup, hpt]
    exact ⟨fun h => by injection h, fun h => by rw [h]⟩
  · intro hne2
    have : some t ≠ some r.t_name := by
      intro h; exact hne2 (by injection h)
    exact ⟨hq.mpr this, ht.mpr this⟩
  · intro heq
    have : ¬(some t ≠ some r.t_name) := by
      intro h; exact h (by rw [heq])
    exact ⟨fun hc => this (hq.mp hc), fun hc => this (ht.mp hc)⟩

def c1recA : CtgMapRec := mkRec "T" "q" 0 10 0 10 100 0 0 false false
def c1recB : CtgMapRec := mkRec "T" "q" 20 30 20 30 100 0 0 false true
def c1records : List CtgMapRec := [c1recA, c1recB]

/-- Counterexample for C1 as stated: the partition does not cover the full record
set — the query-duplicate record `c1recB` satisfies "its query's primary target equals
the record's target name", yet it is stored neither as primary nor as alternate. -/
theorem c1_counterexample :
    primaryTarget c1records c1recB.q_name = some c1recB.t_name ∧
    c1recB ∉ (tgtToRecords c1records c1recB.t_name).getD [] ∧
    c1recB ∉ qryAltRecords c1records c1recB.q_name ∧
    c1recB ∉ tgtAltRecords c1records c1recB.t_name := by
  decide

/-- Witness for the amended C1 at a concrete record set. -/
theorem c1_witness :
    (c1recA ∈ c1records ∧ c1recA.q_dup = false) ∧
    (∃ t, primaryTarget c1records c1recA.q_name = some t
      ∧ t ∈ candidateTargets c1records c1recA.q_name
      ∧ (∀ t' ∈ candidateTargets c1records c1recA.q_name,
          qSpanTally c1records c1recA.q_name t' ≤ qSpanTally c1records c1recA.q_name t)
      ∧ (c1recA ∈ (tgtToRecords c1records c1recA.t_name).getD [] ↔ t = c1recA.t_name)
      ∧ (t ≠ c1recA.t_name →
          c1recA ∈ qryAltRecords c1records c1recA.q_name
            ∧ c1recA ∈ tgtAltRecords c1records c1recA.t_name)
      ∧ (t = c1recA.t_name →
          c1recA ∉ qryAltRecords c1records c1recA.q_name
            ∧ c1recA ∉ tgtAltRecords c1records c1recA.t_name)) :=
  ⟨⟨by decide, by decide⟩, c1_primary_partition c1records c1recA (by decide) (by decide)⟩

/-! ### Layout soundness -/

theorem tgtToRecords_some {records : List CtgMapRec} {t : String} {l : List CtgMapRec}
    (h : tgtToRecords records t = some l) :
    l = primaryRecords records t ∧ l ≠ [] := by
  unfold tgtToRecords at h
  cases hp : primaryRecords records t with
  | nil => rw [hp] at h; cases h
  | cons a as =>
    rw [hp] at h
    injection h with h
    exact ⟨h.symm, by rw [← h]; simp⟩

theorem layoutAux_sound (ctgF : Option String) (qt : QLenTable)
    (ttr : String → Option (List CtgMapRec)) :
    ∀ (table : List (Nat × String × Nat)) (off : ℤ) (bs : List TargetBlock) (fin : ℤ),
      layoutAux ctgF qt ttr table off = some (bs, fin) →
        (∀ b ∈ bs, ttr b.name = some b.records) ∧
        (∀ b ∈ bs, ∃ qs, queryLenSum qt b.records = some qs) ∧
        (∀ b ∈ bs, bs.head? = some b → b.offset = off) ∧
        List.Chain' (fun a b => ∃ qs, queryLenSum qt a.records = some qs ∧
          b.offset = a.offset + max (a.t_len : ℤ) qs + target_padding) bs ∧
        (∀ b ∈ bs, off ≤ b.offset) := by
  intro table
  induction table with
  | nil =>
    intro off bs fin h
    simp only [layoutAux] at h
    injection h with h
    injection h with h1 h2
    subst h1
    simp
  | cons entry rest ih =>
    obtain ⟨id, name, tlen⟩ := entry
    intro off bs fin h
    simp only [layoutAux] at h
    by_cases hskip : skipTarget ctgF name = true
    · rw [if_pos hskip] at h
      exact ih off bs fin h
    · rw [if_neg hskip] at h
      split at h
      · cases h
      · next qsum hq =>
        split at h
        · next recs ht =>
          split at h
          · cases h
          · next bs' fin' hrec =>
            injection h with h
            injection h with h1 h2
            subst h2
            obtain ⟨ih1, ih2, ih3, ih4, ih5⟩ :=
              ih (off + max (tlen : ℤ) qsum + target_padding) bs' fin' hrec
            have hq' : queryLenSum qt recs = some qsum := by
              rw [ht] at hq
              exact hq
            subst h1
            have hstep : (0 : ℤ) < max (tlen : ℤ) qsum + target_padding := by
              have h0 : (0 : ℤ) ≤ (tlen : ℤ) := Int.natCast_nonneg tlen
              have h1 : (0 : ℤ) ≤ max (tlen : ℤ) qsum := le_trans h0 (le_max_left _ _)
              have h2 : (0 : ℤ) < target_padding := by norm_num [target_padding]
              linarith
            refine ⟨?_, ?_, ?_, ?_, ?_⟩
            · intro b hb
              rcases List.mem_cons.mp hb with hb | hb
              · subst hb; exact ht
              · exact ih1 b hb
            · intro b hb
              rcases List.mem_cons.mp hb with hb | hb
              · subst hb; exact ⟨qsum, hq'⟩
              · exact ih2 b hb
            · intro b _ hb
              simp only [List.head?_cons, Option.some_inj] at hb
              subst hb
              rfl
            · rw [List.chain'_cons']
              constructor
              · intro b hb
                refine ⟨qsum, hq', ?_⟩
                have hhd : bs'.head? = some b := hb
                have hbmem : b ∈ bs' := by
                  cases bs' with
                  | nil => cases hhd
                  | cons x xs =>
                    simp only [List.head?_cons, Option.some_inj] at hhd
                    subst hhd
                    exact List.mem_cons_self _ _
                exact ih3 b hbmem hhd
              · exact ih4
            · intro b hb
              rcases List.mem_cons.mp hb with hb | hb
              · subst hb; exact le_refl _
              · exact le_trans (by linarith) (ih5 b hb)
        · exact ih off bs fin h

theorem queryLenSumAux_eq_sum (qt : QLenTable) :
    ∀ (block : List CtgMapRec) (acc : ℤ) (seen : List String) (s : ℤ),
      queryLenSumAux qt block acc seen = some s →
      s = acc + ((newNames block seen).map fun q => ((alookup qt q).getD 0 : ℤ)).sum := by
  intro block
  induction block with
  | nil =>
    intro acc seen s h
    simp only [queryLenSumAux] at h
    injection h with h
    subst h
    simp [newNames]
  | cons r rest ih =>
    intro acc seen s h
    simp only [queryLenSumAux] at h
    split at h
    · cases h
    · next ql hl =>
      by_cases hs : r.q_name ∈ seen
      · rw [if_pos hs] at h
        have := ih acc seen s h
        simp only [newNames]
        rw [if_pos hs]
        exact this
      · rw [if_neg hs] at h
        have := ih (acc + (ql : ℤ)) (r.q_name :: seen) s h
        simp only [newNames]
        rw [if_neg hs]
        simp only [List.map_cons, List.sum_cons, hl, Option.getD_some]
        rw [this]
        ring

theorem queryLenSumAux_lookup (qt : QLenTable) :
    ∀ (block : List CtgMapRec) (acc : ℤ) (seen : List String) (s : ℤ),
      queryLenSumAux qt block acc seen = some s →
      ∀ r ∈ block, (alookup qt r.q_name).isSome := by
  intro block
  induction block with
  | nil => intro acc seen s _ r hr; cases hr
  | cons x rest ih =>
    intro acc seen s h r hr
    simp only [queryLenSumAux] at h
    split at h
    · cases h
    · next ql hl =>
      rcases List.mem_cons.mp hr with hr | hr
      · subst hr
        rw [hl]
        rfl
      · by_cases hs : x.q_name ∈ seen
        · rw [if_pos hs] at h
          exact ih acc seen s h r hr
        · rw [if_neg hs] at h
          exact ih (acc + (ql : ℤ)) (x.q_name :: seen) s h r hr

/-- Claim C3: for the targets included in the layout, walked in table order, the
extent of each block is the sum of the lengths of its distinct query contigs
(deduplicated by name), consecutive placed blocks are separated by exactly
`max(target_length, query_extent) + 1.5e6`, and the assigned global offsets form a
strictly increasing sequence. -/
theorem c3_layout_offsets (records : List CtgMapRec)
    (tt : List (Nat × String × Nat)) (qt : QLenTable) (ctgF : Option String)
    (blocks : List TargetBlock) (fin : ℤ)
    (h : runLayout records tt qt ctgF = some (blocks, fin)) :
    (∀ b ∈ blocks, ∃ qs, queryLenSum qt b.records = some qs ∧
        qs = ((dedupNames b.records).map fun q => ((alookup qt q).getD 0 : ℤ)).sum) ∧
    List.Chain' (fun a b => ∃ qs, queryLenSum qt a.records = some qs ∧
        b.offset = a.offset + max (a.t_len : ℤ) qs + target_padding) blocks ∧
    List.Pairwise (fun a b => a.offset < b.offset) blocks := by
  obtain ⟨h1, h2, h3, h4, h5⟩ :=
    layoutAux_sound ctgF qt (tgtToRecords records) tt 0 blocks fin h
  refine ⟨?_, h4, ?_⟩
  · intro b hb
    obtain ⟨qs, hqs⟩ := h2 b hb
    refine ⟨qs, hqs, ?_⟩
    have := queryLenSumAux_eq_sum qt b.records 0 [] qs hqs
    simpa [dedupNames] using this
  · haveI : IsTrans TargetBlock (fun a b => a.offset < b.offset) :=
      ⟨fun _ _ _ hab hbc => lt_trans hab hbc⟩
    rw [← List.chain'_iff_pairwise]
    refine List.Chain'.imp ?_ h4
    rintro a b ⟨qs, _, hoff⟩
    have h0 : (0 : ℤ) ≤ (a.t_len : ℤ) := Int.natCast_nonneg _
    have hm : (0 : ℤ) ≤ max (a.t_len : ℤ) qs := le_trans h0 (le_max_left _ _)
    have hp : (0 : ℤ) < target_padding := by norm_num [target_padding]
    rw [hoff]
    linarith

def c3wrec1 : CtgMapRec := mkRec "A" "x" 0 10 0 10 40 0 0 false false
def c3wrec2 : CtgMapRec := mkRec "B" "y" 0 10 0 10 50 0 0 false false
def c3wrecords : List CtgMapRec := [c3wrec1, c3wrec2]
def c3wtt : List (Nat × String × Nat) := [(0, "A", 100), (1, "B", 200)]
def c3wqt : QLenTable := [("x", 40), ("y", 50)]
def c3wblocks : List TargetBlock :=
  [⟨0, "A", 100, 0, [c3wrec1]⟩, ⟨1, "B", 200, 1500100, [c3wrec2]⟩]

/-- Witness for C3 on a concrete two-target run. -/
theorem c3_witness :
    runLayout c3wrecords c3wtt c3wqt none = some (c3wblocks, 3000300) ∧
    ((∀ b ∈ c3wblocks, ∃ qs, queryLenSum c3wqt b.records = some qs ∧
        qs = ((dedupNames b.records).map fun q => ((alookup c3wqt q).getD 0 : ℤ)).sum) ∧
     List.Chain' (fun a b => ∃ qs, queryLenSum c3wqt a.records = some qs ∧
        b.offset = a.offset + max (a.t_len : ℤ) qs + target_padding) c3wblocks ∧
     List.Pairwise (fun a b => a.offset < b.offset) c3wblocks) :=
  ⟨by decide, c3_layout_offsets c3wrecords c3wtt c3wqt none c3wblocks 3000300 (by decide)⟩

/-- Counterexample for C6: a target table containing only "chr1", with no records at
all, lays out no block — the target with no primary records is dropped from
`target_aln_blocks`, so the overview pass never places it nor draws its backbone. -/
theorem c6_counterexample :
    runLayout [] [(0, "chr1", 100)] [] none = some ([], 0) ∧
    "chr1" ∉ overviewBackboneTargets
        ((runLayout [] [(0, "chr1", 100)] [] none).getD ([], 0)).1 := by
  decide

/-- Claim C6 as amended: a target of the target-length table with no primary records
is excluded from the layout (and hence from the overview pass) entirely; every block
that is laid out belongs to a target with at least one primary record, and exactly the
laid-out blocks receive an overview backbone. -/
theorem c6_included_targets (records : List CtgMapRec)
    (tt : List (Nat × String × Nat)) (qt : QLenTable) (ctgF : Option String)
    (blocks : List TargetBlock) (fin : ℤ)
    (h : runLayout records tt qt ctgF = some (blocks, fin)) :
    ∀ b ∈ blocks, tgtToRecords records b.name = some b.records ∧
      b.records ≠ [] ∧ b.name ∈ overviewBackboneTargets blocks := by
  obtain ⟨h1, _, _, _, _⟩ :=
    layoutAux_sound ctgF qt (tgtToRecords records) tt 0 blocks fin h
  intro b hb
  have ht := h1 b hb
  have hs := tgtToRecords_some ht
  exact ⟨ht, hs.2, List.mem_map_of_mem TargetBlock.name hb⟩

/-- Witness for the amended C6 on a concrete two-target run. -/
theorem c6_witness :
    runLayout c3wrecords c3wtt c3wqt none = some (c3wblocks, 3000300) ∧
    (∀ b ∈ c3wblocks, tgtToRecords c3wrecords b.name = some b.records ∧
      b.records ≠ [] ∧ b.name ∈ overviewBackboneTargets c3wblocks) :=
  ⟨by decide,
   c6_included_targets c3wrecords c3wtt c3wqt none c3wblocks 3000300 (by decide)⟩

def c9rec : CtgMapRec := mkRec "chrX" "q" 0 10 0 5 50 0 0 false false

/-- Counterexample for C9: the record references target "chrX", absent from the
target-length table, yet the layout phase completes normally (no fatal abort), and the
run goes on to emit its document. -/
theorem c9_counterexample :
    (([((0 : Nat), "chr1", (100 : Nat))].map (fun e => e.2.1)).contains c9rec.t_name
      = false) ∧
    runLayout [c9rec] [(0, "chr1", 100)] [("q", 50)] none = some ([], 0) := by
  decide

/-- Claim C9 as amended: only query-name lookups are fatal — if the layout phase
completes (the run does not abort), every record of every laid-out block has its query
name in the query-length table; contrapositively, a laid-out block record whose query
name is absent from the table makes the layout phase abort with no output.  A record
whose target name is absent from the target-length table is silently ignored (see the
counterexample). -/
theorem c9_fatal_on_missing_query (records : List CtgMapRec)
    (tt : List (Nat × String × Nat)) (qt : QLenTable) (ctgF : Option String)
    (blocks : List TargetBlock) (fin : ℤ)
    (h : runLayout records tt qt ctgF = some (blocks, fin)) :
    ∀ b ∈ blocks, ∀ r ∈ b.records, (alookup qt r.q_name).isSome := by
  obtain ⟨_, h2, _, _, _⟩ :=
    layoutAux_sound ctgF qt (tgtToRecords records) tt 0 blocks fin h
  intro b hb r hr
  obtain ⟨qs, hqs⟩ := h2 b hb
  exact queryLenSumAux_lookup qt b.records 0 [] qs hqs r hr

/-- Witness for the amended C9 on a concrete two-target run. -/
theorem c9_witness :
    runLayout c3wrecords c3wtt c3wqt none = some (c3wblocks, 3000300) ∧
    (∀ b ∈ c3wblocks, ∀ r ∈ b.records, (alookup c3wqt r.q_name).isSome) :=
  ⟨by decide,
   c9_fatal_on_missing_query c3wrecords c3wtt c3wqt none c3wblocks 3000300 (by decide)⟩

/-! ### Representative-map and within-block offset lemmas -/

theorem mem_updateRep {kv : String × CtgMapRec} :
    ∀ (m : List (String × CtgMapRec)) (r : CtgMapRec), kv ∈ updateRep m r →
      kv ∈ m ∨ (kv.1 = r.q_name ∧ kv.2 = r) := by
  intro m
  induction m with
  | nil =>
    intro r h
    simp only [updateRep, List.mem_singleton] at h
    right
    rw [h]
    exact ⟨rfl, rfl⟩
  | cons ke rest ih =>
    obtain ⟨k, e⟩ := ke
    intro r h
    by_cases hk : k = r.q_name
    · simp only [updateRep, if_pos hk] at h
      rcases List.mem_cons.mp h with h1 | h1
      · by_cases hspan : recSpan e < recSpan r
        · rw [if_pos hspan] at h1
          right
          rw [h1]
          exact ⟨hk, rfl⟩
        · rw [if_neg hspan] at h1
          left
          rw [h1]
          exact List.mem_cons_self _ _
      · exact Or.inl (List.mem_cons_of_mem _ h1)
    · simp only [updateRep, if_neg hk] at h
      rcases List.mem_cons.mp h with h1 | h1
      · left
        rw [h1]
        exact List.mem_cons_self _ _
      · rcases ih r h1 with h2 | h2
        · exact Or.inl (List.mem_cons_of_mem _ h2)
        · exact Or.inr h2

theorem foldl_updateRep_mem (S : List CtgMapRec) :
    ∀ (l : List CtgMapRec), (∀ r ∈ l, r ∈ S) →
      ∀ (m : List (String × CtgMapRec)),
        (∀ kv ∈ m, kv.2.q_name = kv.1 ∧ kv.2 ∈ S) →
        ∀ kv ∈ l.foldl updateRep m, kv.2.q_name = kv.1 ∧ kv.2 ∈ S := by
  intro l
  induction l with
  | nil => intro _ m hm kv hkv; exact hm kv hkv
  | cons r rest ih =>
    intro hl m hm kv hkv
    simp only [List.foldl_cons] at hkv
    refine ih (fun x hx => hl x (List.mem_cons_of_mem _ hx)) (updateRep m r) ?_ kv hkv
    intro kv' hkv'
    rcases mem_updateRep m r hkv' with h | h
    · exact hm kv' h
    · refine ⟨?_, ?_⟩
      · rw [h.2, ← h.1]
      · rw [h.2]
        exact hl r (List.mem_cons_self _ _)

theorem bestQueryBlock_mem (block : List CtgMapRec) :
    ∀ kv ∈ bestQueryBlock block, kv.2.q_name = kv.1 ∧ kv.2 ∈ block :=
  foldl_updateRep_mem block block (fun _ hr => hr) [] (fun _ h => absurd h (by simp))

theorem newNames_congr :
    ∀ (block : List CtgMapRec) (seen seen' : List String),
      (∀ x, x ∈ seen ↔ x ∈ seen') → newNames block seen = newNames block seen' := by
  intro block
  induction block with
  | nil => intro seen seen' _; rfl
  | cons r rest ih =>
    intro seen seen' hss
    simp only [newNames]
    by_cases h : r.q_name ∈ seen
    · rw [if_pos h, if_pos ((hss _).mp h)]
      exact ih seen seen' hss
    · rw [if_neg h, if_neg (fun hc => h ((hss _).mpr hc))]
      rw [ih (r.q_name :: seen) (r.q_name :: seen') ?_]
      intro x
      simp only [List.mem_cons]
      exact or_congr Iff.rfl (hss x)

theorem keys_foldl_updateRep :
    ∀ (l : List CtgMapRec) (m : List (String × CtgMapRec)),
      (l.foldl updateRep m).map Prod.fst
        = m.map Prod.fst ++ newNames l (m.map Prod.fst) := by
  intro l
  induction l with
  | nil => intro m; simp [newNames]
  | cons r rest ih =>
    intro m
    simp only [List.foldl_cons]
    rw [ih (updateRep m r), keys_updateRep]
    by_cases h : r.q_name ∈ m.map Prod.fst
    · rw [if_pos h]
      simp only [newNames]
      rw [if_pos h]
    · rw [if_neg h]
      simp only [newNames]
      rw [if_neg h]
      rw [newNames_congr rest (m.map Prod.fst ++ [r.q_name]) (r.q_name :: m.map Prod.fst)
        (by intro x; simp [or_comm])]
      simp

theorem bestQueryBlock_keys (block : List CtgMapRec) :
    (bestQueryBlock block).map Prod.fst = dedupNames block := by
  have := keys_foldl_updateRep block []
  simpa [bestQueryBlock, dedupNames] using this

theorem insertByTs_perm (r : CtgMapRec) :
    ∀ (l : List CtgMapRec), List.Perm (insertByTs r l) (r :: l) := by
  intro l
  induction l with
  | nil => simp [insertByTs]
  | cons x xs ih =>
    simp only [insertByTs]
    by_cases h : x.ts ≤ r.ts
    · rw [if_pos h]
      exact List.Perm.trans (List.Perm.cons x ih) (List.Perm.swap r x xs)
    · rw [if_neg h]

theorem sortByTs_perm : ∀ (l : List CtgMapRec), List.Perm (sortByTs l) l := by
  intro l
  induction l with
  | nil => simp [sortByTs]
  | cons x xs ih =>
    simp only [sortByTs]
    exact List.Perm.trans (insertByTs_perm x (sortByTs xs)) (List.Perm.cons x ih)

theorem repList_names_perm (block : List CtgMapRec) :
    List.Perm ((repList block).map CtgMapRec.q_name) (dedupNames block) := by
  have h1 : List.Perm (repList block) ((bestQueryBlock block).map Prod.snd) :=
    sortByTs_perm _
  have h2 := h1.map CtgMapRec.q_name
  have h3 : ((bestQueryBlock block).map Prod.snd).map CtgMapRec.q_name
      = (bestQueryBlock block).map Prod.fst := by
    rw [List.map_map]
    exact List.map_congr_left (fun kv hkv => (bestQueryBlock_mem block kv hkv).1)
  rw [h3, bestQueryBlock_keys] at h2
  exact h2

theorem mem_repList_mem_block {block : List CtgMapRec} {r : CtgMapRec}
    (h : r ∈ repList block) : r ∈ block ∧ r.q_name ∈ dedupNames block := by
  have h1 : r ∈ (bestQueryBlock block).map Prod.snd :=
    ((sortByTs_perm _).mem_iff).mp h
  obtain ⟨kv, hkv, hkv2⟩ := List.mem_map.mp h1
  have hm := bestQueryBlock_mem block kv hkv
  constructor
  · rw [← hkv2]; exact hm.2
  · exact (repList_names_perm block).mem_iff.mp (List.mem_map_of_mem _ h)

theorem alookup_isSome_of_mem_keys {α : Type} :
    ∀ (m : List (String × α)) (k : String), k ∈ m.map Prod.fst →
      (alookup m k).isSome := by
  intro m
  induction m with
  | nil => intro k hk; simp at hk
  | cons kv rest ih =>
    obtain ⟨k', v⟩ := kv
    intro k hk
    simp only [alookup]
    by_cases h : k' = k
    · rw [if_pos h]; rfl
    · rw [if_neg h]
      apply ih
      simp only [List.map_cons, List.mem_cons] at hk
      rcases hk with h1 | h1
      · exact absurd h1.symm h
      · exact h1

theorem qOffsetListAux_isSome (qt : QLenTable) :
    ∀ (reps : List CtgMapRec) (cur : ℤ) (m : List (String × ℤ)),
      (∀ r ∈ reps, (alookup qt r.q_name).isSome) →
      ∃ m', qOffsetListAux qt reps cur m = some m' := by
  intro reps
  induction reps with
  | nil => intro cur m _; exact ⟨m, rfl⟩
  | cons r rest ih =>
    intro cur m hall
    have hr := hall r (List.mem_cons_self _ _)
    simp only [qOffsetListAux]
    split
    · next hl => rw [hl] at hr; cases hr
    · next ql hl =>
      by_cases hmem : r.q_name ∈ m.map Prod.fst
      · rw [if_pos hmem]
        exact ih cur m (fun x hx => hall x (List.mem_cons_of_mem _ hx))
      · rw [if_neg hmem]
        exact ih (cur + (ql : ℤ)) (m ++ [(r.q_name, cur)])
          (fun x hx => hall x (List.mem_cons_of_mem _ hx))

theorem qOffsetListAux_keys (qt : QLenTable) :
    ∀ (reps : List CtgMapRec) (cur : ℤ) (m m' : List (String × ℤ)),
      qOffsetListAux qt reps cur m = some m' →
      ∀ k, (k ∈ m.map Prod.fst ∨ ∃ r ∈ reps, r.q_name = k) →
        k ∈ m'.map Prod.fst := by
  intro reps
  induction reps with
  | nil =>
    intro cur m m' h k hk
    simp only [qOffsetListAux] at h
    injection h with h
    subst h
    rcases hk with hk | ⟨r, hr, _⟩
    · exact hk
    · cases hr
  | cons r rest ih =>
    intro cur m m' h k hk
    simp only [qOffsetListAux] at h
    split at h
    · cases h
    · next ql hl =>
      by_cases hmem : r.q_name ∈ m.map Prod.fst
      · rw [if_pos hmem] at h
        refine ih cur m m' h k ?_
        rcases hk with hk | ⟨r', hr', hq'⟩
        · exact Or.inl hk
        · rcases List.mem_cons.mp hr' with h1 | h1
          · subst h1; exact Or.inl (hq' ▸ hmem)
          · exact Or.inr ⟨r', h1, hq'⟩
      · rw [if_neg hmem] at h
        refine ih (cur + (ql : ℤ)) (m ++ [(r.q_name, cur)]) m' h k ?_
        rcases hk with hk | ⟨r', hr', hq'⟩
        · exact Or.inl (by simp [hk])
        · rcases List.mem_cons.mp hr' with h1 | h1
          · subst h1
            exact Or.inl (by simp [hq'.symm])
          · exact Or.inr ⟨r', h1, hq'⟩

theorem qOffsetListAux_bound (qt : QLenTable) :
    ∀ (reps : List CtgMapRec) (cur : ℤ) (m m' : List (String × ℤ)),
      qOffsetListAux qt reps cur m = some m' →
      ∀ kv ∈ m', kv ∈ m ∨
        kv.2 ≤ cur + (reps.map fun r => ((alookup qt r.q_name).getD 0 : ℤ)).sum := by
  intro reps
  induction reps with
  | nil =>
    intro cur m m' h kv hkv
    simp only [qOffsetListAux] at h
    injection h with h
    subst h
    exact Or.inl hkv
  | cons r rest ih =>
    intro cur m m' h kv hkv
    have hsumrest : (0 : ℤ) ≤ (rest.map fun x => ((alookup qt x.q_name).getD 0 : ℤ)).sum :=
      List.sum_nonneg (by
        intro x hx
        obtain ⟨x', _, hx'⟩ := List.mem_map.mp hx
        rw [← hx']
        exact Int.natCast_nonneg _)
    simp only [qOffsetListAux] at h
    split at h
    · cases h
    · next ql hl =>
      have hql : ((alookup qt r.q_name).getD 0 : ℤ) = (ql : ℤ) := by rw [hl]; rfl
      have hql0 : (0 : ℤ) ≤ (ql : ℤ) := Int.natCast_nonneg _
      by_cases hmem : r.q_name ∈ m.map Prod.fst
      · rw [if_pos hmem] at h
        rcases ih cur m m' h kv hkv with h1 | h1
        · exact Or.inl h1
        · refine Or.inr ?_
          simp only [List.map_cons, List.sum_cons, hql]
          linarith
      · rw [if_neg hmem] at h
        rcases ih (cur + (ql : ℤ)) (m ++ [(r.q_name, cur)]) m' h kv hkv with h1 | h1
        · rcases List.mem_append.mp h1 with h2 | h2
          · exact Or.inl h2
          · refine Or.inr ?_
            simp only [List.mem_singleton] at h2
            simp only [List.map_cons, List.sum_cons, hql]
            rw [h2]
            linarith
        · refine Or.inr ?_
          simp only [List.map_cons, List.sum_cons, hql]
          linarith

theorem repList_sum (qt : QLenTable) (block : List CtgMapRec) (qs : ℤ)
    (h : queryLenSum qt block = some qs) :
    ((repList block).map fun r => ((alookup qt r.q_name).getD 0 : ℤ)).sum = qs := by
  have hq := queryLenSumAux_eq_sum qt block 0 [] qs h
  have hperm := (repList_names_perm block).map fun q => ((alookup qt q).getD 0 : ℤ)
  have hmm : ((repList block).map fun r => ((alookup qt r.q_name).getD 0 : ℤ))
      = ((repList block).map CtgMapRec.q_name).map
          fun q => ((alookup qt q).getD 0 : ℤ) := by
    rw [List.map_map]
    rfl
  rw [hmm, hperm.sum_eq, hq]
  simp [dedupNames]

/-- Claim C8 as amended: for every target block, each within-block offset assigned to
a distinct query contig of that target (rather than the sum of all those offsets)
never exceeds the target's computed placement width minus the padding constant. -/
theorem c8_offset_bound (qt : QLenTable) (block : List CtgMapRec) (tlen : Nat)
    (m : List (String × ℤ)) (qs : ℤ)
    (hm : qOffsetMap qt block = some m)
    (hq : queryLenSum qt block = some qs) :
    ∀ kv ∈ m, kv.2 ≤ (max (tlen : ℤ) qs + target_padding) - target_padding := by
  intro kv hkv
  rcases qOffsetListAux_bound qt (repList block) 0 [] m hm kv hkv with h | h
  · cases h
  · rw [repList_sum qt block qs hq] at h
    have h2 : qs ≤ max (tlen : ℤ) qs := le_max_right _ _
    have h3 : (max (tlen : ℤ) qs + target_padding) - target_padding
        = max (tlen : ℤ) qs := by ring
    rw [h3]
    linarith

def c8r (q : String) (t : Nat) : CtgMapRec := mkRec "T" q t (t + 10) 0 10 10 0 0 false false
def c8block : List CtgMapRec := [c8r "a" 0, c8r "b" 10, c8r "c" 20, c8r "d" 30]
def c8qt : QLenTable := [("a", 10), ("b", 10), ("c", 10), ("d", 10)]

/-- Counterexample for C8 as stated: with four distinct query contigs of length 10
each on target "T" of length 1, the within-block offsets are 0, 10, 20, 30; their SUM
is 60, while the placement width minus padding is max(1, 40) = 40 — the sum exceeds
it.  The block is reachable: it is exactly the primary-record list of "T". -/
theorem c8_counterexample :
    tgtToRecords c8block "T" = some c8block ∧
    qOffsetMap c8qt c8block = some [("a", 0), ("b", 10), ("c", 20), ("d", 30)] ∧
    queryLenSum c8qt c8block = some 40 ∧
    ¬ (([("a", (0 : ℤ)), ("b", 10), ("c", 20), ("d", 30)].map Prod.snd).sum
        ≤ (max ((1 : Nat) : ℤ) 40 + target_padding) - target_padding) := by
  decide

/-- Witness for the amended C8 on the same concrete block. -/
theorem c8_witness :
    (qOffsetMap c8qt c8block = some [("a", 0), ("b", 10), ("c", 20), ("d", 30)] ∧
     queryLenSum c8qt c8block = some 40) ∧
    (∀ kv ∈ [("a", (0 : ℤ)), ("b", 10), ("c", 20), ("d", 30)],
      kv.2 ≤ (max ((1 : Nat) : ℤ) 40 + target_padding) - target_padding) :=
  ⟨⟨by decide, by decide⟩,
   c8_offset_bound c8qt c8block 1 [("a", 0), ("b", 10), ("c", 20), ("d", 30)] 40
     (by decide) (by decide)⟩

/-- Claim C10: for every target block whose record names all appear in the
query-length table, the representative-selection step produces a within-block
query-offset map that is defined on every query name occurring in the block, so the
offset lookup performed while drawing ribbons (the unwrap in both the overview and the
detail pass) cannot fail. -/
theorem c10_offset_map_total (qt : QLenTable) (block : List CtgMapRec)
    (hq : ∀ r ∈ block, (alookup qt r.q_name).isSome) :
    ∃ m, qOffsetMap qt block = some m ∧
      ∀ r ∈ block, r.q_name ∈ m.map Prod.fst ∧ (alookup m r.q_name).isSome := by
  have hreps : ∀ r' ∈ repList block, (alookup qt r'.q_name).isSome := by
    intro r' hr'
    exact hq r' (mem_repList_mem_block hr').1
  obtain ⟨m, hm⟩ := qOffsetListAux_isSome qt (repList block) 0 [] hreps
  refine ⟨m, hm, ?_⟩
  intro r hr
  have hk : r.q_name ∈ (bestQueryBlock block).map Prod.fst :=
    qname_mem_keys_foldl block [] r hr
  rw [bestQueryBlock_keys] at hk
  have hk2 : r.q_name ∈ (repList block).map CtgMapRec.q_name :=
    (repList_names_perm block).mem_iff.mpr hk
  obtain ⟨r', hr', hq'⟩ := List.mem_map.mp hk2
  have hkey := qOffsetListAux_keys qt (repList block) 0 [] m hm r.q_name
    (Or.inr ⟨r', hr', hq'⟩)
  exact ⟨hkey, alookup_isSome_of_mem_keys m r.q_name hkey⟩

/-- Witness for C10 on a concrete four-query block. -/
theorem c10_witness :
    (∀ r ∈ c8block, (alookup c8qt r.q_name).isSome) ∧
    (∃ m, qOffsetMap c8qt c8block = some m ∧
      ∀ r ∈ c8block, r.q_name ∈ m.map Prod.fst ∧ (alookup m r.q_name).isSome) :=
  ⟨by decide, c10_offset_map_total c8qt c8block (by decide)⟩
